import Mathlib

/-!
Verification of the tantivy-fst core: an ordered map from byte-string keys
to u64 values represented as a finite-state transducer (FST).

The repository's `src/` tree only carries the public wrappers
(`src/map.rs`, which delegates to the `raw` module, and `src/regex/mod.rs`,
whose `compile`/`dfa` submodules are absent).  The definitions below embed
the data model and the algorithms of the specification: keys are byte
sequences (`List Nat`), values are `Nat` (u64 arithmetic never overflows
here because construction only ever splits a value with `min` and
re-assembles it with `+`), and the FST is the tree of nodes described in
the spec's data model, with transitions stored newest-first (mirroring the
on-disk reverse order) and output increments pushed toward the root.
-/

/-- Strict lexicographic order on byte-string keys. -/
def keyLt : List Nat → List Nat → Bool
  | _, [] => false
  | [], _ :: _ => true
  | a :: as, b :: bs => if a < b then true else if a = b then keyLt as bs else false

/-- Non-strict lexicographic order on byte-string keys. -/
def keyLe (a b : List Nat) : Bool := keyLt a b || a = b

theorem keyLt_irrefl (a : List Nat) : keyLt a a = false := by
  induction a with
  | nil => rfl
  | cons x xs ih => simp [keyLt, ih]

theorem keyLt_ne {a b : List Nat} (h : keyLt a b = true) : a ≠ b := by
  intro he; subst he; rw [keyLt_irrefl] at h; exact Bool.false_ne_true h

theorem keyLt_trans : ∀ {a b c : List Nat},
    keyLt a b = true → keyLt b c = true → keyLt a c = true := by
  intro a
  induction a with
  | nil =>
    intro b c hab hbc
    cases b with
    | nil => simp [keyLt] at hab
    | cons y ys =>
      cases c with
      | nil => simp [keyLt] at hbc
      | cons z zs => simp [keyLt]
  | cons x xs ih =>
    intro b c hab hbc
    cases b with
    | nil => simp [keyLt] at hab
    | cons y ys =>
      cases c with
      | nil => simp [keyLt] at hbc
      | cons z zs =>
        simp only [keyLt] at hab hbc ⊢
        by_cases hxy : x < y
        · by_cases hyz : y < z
          · simp [Nat.lt_trans hxy hyz]
          · simp [hyz] at hbc
            rcases hbc with ⟨hyz', _⟩
            subst hyz'
            simp [hxy]
        · simp [hxy] at hab
          rcases hab with ⟨hxy', hab⟩
          subst hxy'
          by_cases hyz : x < z
          · simp [hyz]
          · simp [hyz] at hbc ⊢
            rcases hbc with ⟨hyz', hbc⟩
            subst hyz'
            simp at hab hbc ⊢
            exact ih hab hbc

theorem keyLt_asymm {a b : List Nat} (h : keyLt a b = true) : keyLt b a = false := by
  by_contra hc
  have hba : keyLt b a = true := by
    cases hh : keyLt b a with
    | true => rfl
    | false => exact absurd hh hc
  have := keyLt_trans h hba
  rw [keyLt_irrefl] at this
  exact Bool.false_ne_true this

theorem keyLt_total (a b : List Nat) :
    keyLt a b = true ∨ a = b ∨ keyLt b a = true := by
  induction a generalizing b with
  | nil =>
    cases b with
    | nil => right; left; rfl
    | cons y ys => left; simp [keyLt]
  | cons x xs ih =>
    cases b with
    | nil => right; right; simp [keyLt]
    | cons y ys =>
      rcases Nat.lt_trichotomy x y with h | h | h
      · left; simp [keyLt, h]
      · subst h
        rcases ih ys with h' | h' | h'
        · left; simp [keyLt, h']
        · right; left; rw [h']
        · right; right; simp [keyLt, h']
      · right; right; simp [keyLt, h]

theorem keyLt_cons_same {b : Nat} {x y : List Nat} :
    keyLt (b :: x) (b :: y) = keyLt x y := by
  simp [keyLt]

/-- A node of the FST: finality flag, final output, and the outgoing
transitions (input byte, output increment, destination).  Transitions are
stored newest-first, i.e. in descending order of input byte, mirroring the
reverse order the encoder writes them in. -/
inductive Node where
  | mk (isFinal : Bool) (finalOut : Nat) (trans : List (Nat × Nat × Node))
deriving Repr

mutual

/-- The sorted list of (key, value) pairs an FST node represents: the
depth-first pre-order walk of the spec's streaming walker, yielding the
final output first and then each subtree in ascending input-byte order. -/
def streamNode : Node → List (List Nat × Nat)
  | Node.mk f fo ts => (if f then [([], fo)] else []) ++ streamTrans ts

/-- Walk of a transition list.  Since transitions are stored newest-first
(descending byte), the tail is walked before the head, which yields keys in
ascending order. -/
def streamTrans : List (Nat × Nat × Node) → List (List Nat × Nat)
  | [] => []
  | (b, o, c) :: ts =>
    streamTrans ts ++ (streamNode c).map (fun kv => (b :: kv.1, o + kv.2))

end

example : streamNode (Node.mk true 7 []) = [([], 7)] := by decide

example :
    streamNode (Node.mk false 0
      [(2, 5, Node.mk true 1 []), (1, 3, Node.mk true 0 [])]) =
    [([1], 3), ([2], 6)] := by decide

/-- Strong induction on nodes through the nested transition list. -/
theorem node_strong_ind (P : Node → Prop)
    (h : ∀ f fo ts, (∀ b o c, (b, o, c) ∈ ts → P c) → P (Node.mk f fo ts)) :
    ∀ n, P n := by
  suffices H : ∀ N n, sizeOf n ≤ N → P n from fun n => H (sizeOf n) n le_rfl
  intro N
  induction N with
  | zero =>
    intro n hn
    cases n with
    | mk f fo ts => simp [Node.mk.sizeOf_spec] at hn
  | succ N ih =>
    intro n hn
    cases n with
    | mk f fo ts =>
      apply h
      intro b o c hc
      apply ih
      have h1 : sizeOf (b, o, c) < sizeOf ts := List.sizeOf_lt_of_mem hc
      simp only [Node.mk.sizeOf_spec] at hn
      simp only [Prod.mk.sizeOf_spec] at h1
      omega

/-- Add `r` to every outgoing output increment and to the final output of a
node.  This is the one-level push of a subtracted residual into a
destination node, from the spec's insertion step. -/
def pushDown (r : Nat) : Node → Node
  | Node.mk f fo ts =>
    Node.mk f (if f then fo + r else fo) (ts.map (fun t => (t.1, t.2.1 + r, t.2.2)))

/-- A fresh chain of nodes for the suffix of a new key: zero output
increments along the path and a final node with final output zero (the
carried residual is placed on the transition entering the chain). -/
def freshNode : List Nat → Node
  | [] => Node.mk true 0 []
  | b :: rest => Node.mk false 0 [(b, 0, freshNode rest)]

/-- One insertion into the FST under construction, for a key strictly
greater than every key already present.  Mirrors the spec's insertion: walk
the common prefix with the previous key (the newest transition at each
level), at each step set the transition output to the prefix (`min`) of the
old output and the carried value, push the subtracted remainder one level
down, and carry the rest; on divergence start a fresh suffix whose entering
transition carries the residual; at the end of the key set the final flag
and store the residual as the final output. -/
def addToNode : Node → List Nat → Nat → Node
  | Node.mk _ _ ts, [], v => Node.mk true v ts
  | Node.mk f fo ts, b :: rest, v =>
    match ts with
    | (b', o, c) :: ts' =>
      if b' = b then
        Node.mk f fo
          ((b, min o v, addToNode (pushDown (o - min o v) c) rest (v - min o v)) :: ts')
      else
        Node.mk f fo ((b, v, freshNode rest) :: ts)
    | [] => Node.mk f fo [(b, v, freshNode rest)]

/-- The FST built from a list of (key, value) pairs by inserting them in
order, starting from the empty non-final root. -/
def buildFst (S : List (List Nat × Nat)) : Node :=
  S.foldl (fun n kv => addToNode n kv.1 kv.2) (Node.mk false 0 [])

example :
    streamNode (buildFst [([1], 1), ([2], 2), ([3], 3)]) =
      [([1], 1), ([2], 2), ([3], 3)] := by decide

example :
    streamNode (buildFst [([5, 1], 10), ([5, 2], 3), ([6], 20)]) =
      [([5, 1], 10), ([5, 2], 3), ([6], 20)] := by decide

example :
    streamNode (buildFst [([], 9), ([0], 4)]) = [([], 9), ([0], 4)] := by decide

theorem streamNode_mk_cons (f : Bool) (fo b o : Nat) (c : Node)
    (ts : List (Nat × Nat × Node)) :
    streamNode (Node.mk f fo ((b, o, c) :: ts)) =
      streamNode (Node.mk f fo ts) ++
        (streamNode c).map (fun kv => (b :: kv.1, o + kv.2)) := by
  simp [streamNode, streamTrans, List.append_assoc]

theorem streamTrans_pushDown (r : Nat) (ts : List (Nat × Nat × Node)) :
    streamTrans (ts.map (fun t => (t.1, t.2.1 + r, t.2.2))) =
      (streamTrans ts).map (fun kv => (kv.1, kv.2 + r)) := by
  induction ts with
  | nil => simp [streamTrans]
  | cons t ts ih =>
    rcases t with ⟨b, o, c⟩
    simp only [List.map_cons, streamTrans, ih, List.map_append, List.map_map]
    congr 1
    apply List.map_congr_left
    intro kv _
    simp [Function.comp]
    omega

theorem streamNode_pushDown (r : Nat) (n : Node) :
    streamNode (pushDown r n) = (streamNode n).map (fun kv => (kv.1, kv.2 + r)) := by
  rcases n with ⟨f, fo, ts⟩
  cases f <;> simp [pushDown, streamNode, streamTrans_pushDown]

theorem streamNode_freshNode (k : List Nat) : streamNode (freshNode k) = [(k, 0)] := by
  induction k with
  | nil => rfl
  | cons b rest ih => simp [freshNode, streamNode, streamTrans, ih]

theorem streamNode_addToNode :
    ∀ (k : List Nat) (n : Node) (v : Nat),
      (∀ kv ∈ streamNode n, keyLt kv.1 k = true) →
      streamNode (addToNode n k v) = streamNode n ++ [(k, v)] := by
  intro k
  induction k with
  | nil =>
    intro n v hk
    rcases n with ⟨f, fo, ts⟩
    have hempty : streamNode (Node.mk f fo ts) = [] := by
      apply List.eq_nil_iff_forall_not_mem.2
      intro kv hkv
      have := hk kv hkv
      rcases kv with ⟨key, w⟩
      cases key <;> simp [keyLt] at this
    have hf : f = false := by
      cases f
      · rfl
      · exfalso
        have : ([], fo) ∈ streamNode (Node.mk true fo ts) := by
          simp [streamNode]
        rw [hempty] at this
        simp at this
    subst hf
    have hts : streamTrans ts = [] := by
      simpa [streamNode] using hempty
    simp [addToNode, streamNode, hts, hempty]
  | cons b rest ih =>
    intro n v hk
    rcases n with ⟨f, fo, ts⟩
    match ts with
    | [] =>
      simp [addToNode, streamNode, streamTrans, streamNode_freshNode]
    | (b', o, c) :: ts' =>
      by_cases hbb : b' = b
      · subst hbb
        have hmo : min o v ≤ o := Nat.min_le_left o v
        have hmv : min o v ≤ v := Nat.min_le_right o v
        have hsub : ∀ kv ∈ streamNode (pushDown (o - min o v) c), keyLt kv.1 rest = true := by
          intro kv hkv
          rw [streamNode_pushDown] at hkv
          rcases List.mem_map.1 hkv with ⟨kv0, hkv0, hkveq⟩
          have hmem : (b' :: kv0.1, o + kv0.2) ∈ streamNode (Node.mk f fo ((b', o, c) :: ts')) := by
            rw [streamNode_mk_cons]
            apply List.mem_append_right
            exact List.mem_map.2 ⟨kv0, hkv0, rfl⟩
          have := hk _ hmem
          rw [keyLt_cons_same] at this
          rw [← hkveq] at *
          exact this
        have hrec := ih (pushDown (o - min o v) c) (v - min o v) hsub
        simp only [addToNode]
        rw [if_pos trivial]
        rw [streamNode_mk_cons, streamNode_mk_cons, hrec, streamNode_pushDown]
        rw [List.map_append, List.map_map, List.append_assoc]
        congr 1
        congr 1
        · apply List.map_congr_left
          intro kv _
          simp [Function.comp]
          omega
        · simp
      · simp only [addToNode, if_neg hbb]
        rw [streamNode_mk_cons (c := freshNode rest), streamNode_freshNode]
        simp

/-- A list of (key, value) pairs whose keys are strictly ascending in
lexicographic order: the builder's required input discipline. -/
def strictlyAscending : List (List Nat × Nat) → Bool
  | [] => true
  | [_] => true
  | a :: b :: t => keyLt a.1 b.1 && strictlyAscending (b :: t)

theorem asc_tail {a : List Nat × Nat} {l : List (List Nat × Nat)}
    (h : strictlyAscending (a :: l) = true) : strictlyAscending l = true := by
  cases l with
  | nil => rfl
  | cons b t => simp [strictlyAscending] at h; exact h.2

theorem asc_head_lt {a : List Nat × Nat} {l : List (List Nat × Nat)}
    (h : strictlyAscending (a :: l) = true) :
    ∀ x ∈ l, keyLt a.1 x.1 = true := by
  induction l generalizing a with
  | nil => intro x hx; simp at hx
  | cons b t ih =>
    intro x hx
    simp only [strictlyAscending, Bool.and_eq_true] at h
    rcases List.mem_cons.1 hx with hxb | hxt
    · subst hxb; exact h.1
    · exact keyLt_trans h.1 (ih h.2 x hxt)

theorem asc_all_before :
    ∀ (L : List (List Nat × Nat)) (m : List Nat × Nat) (R : List (List Nat × Nat)),
      strictlyAscending (L ++ m :: R) = true → ∀ x ∈ L, keyLt x.1 m.1 = true := by
  intro L
  induction L with
  | nil => intro m R _ x hx; simp at hx
  | cons a L' ih =>
    intro m R h x hx
    rcases List.mem_cons.1 hx with hxa | hx'
    · subst hxa
      exact asc_head_lt h m (by simp)
    · exact ih m R (asc_tail h) x hx'

theorem streamNode_foldl :
    ∀ (S : List (List Nat × Nat)) (n : Node),
      strictlyAscending (streamNode n ++ S) = true →
      streamNode (S.foldl (fun m kv => addToNode m kv.1 kv.2) n) = streamNode n ++ S := by
  intro S
  induction S with
  | nil => intro n _; simp
  | cons kv S' ih =>
    intro n h
    have hlt : ∀ x ∈ streamNode n, keyLt x.1 kv.1 = true :=
      asc_all_before (streamNode n) kv S' h
    have hstep := streamNode_addToNode kv.1 n kv.2 hlt
    simp only [List.foldl_cons]
    rw [ih (addToNode n kv.1 kv.2)]
    · rw [hstep, List.append_assoc]; simp
    · rw [hstep, List.append_assoc]
      simpa using h

theorem streamNode_buildFst (S : List (List Nat × Nat))
    (h : strictlyAscending S = true) : streamNode (buildFst S) = S := by
  have := streamNode_foldl S (Node.mk false 0 []) (by simpa [streamNode, streamTrans] using h)
  simpa [buildFst, streamNode, streamTrans] using this

/-- The error kinds the builder reports for mis-ordered insertions. -/
inductive InsertError where
  | outOfOrder
  | duplicateKey
deriving DecidableEq, Repr

/-- The observable state of a map builder: the last inserted key and the
sequence of accepted (key, value) pairs. -/
structure BuilderState where
  lastKey : Option (List Nat)
  pairs : List (List Nat × Nat)
deriving DecidableEq, Repr

/-- Modelled from the spec: `raw::Builder::insert`, which `MapBuilder::insert`
delegates to, is not under `src/`.  Per the spec, insert requires the key to
be strictly greater than the previous key in lexicographic byte order;
an equal key fails with `DuplicateKey` and a smaller key with `OutOfOrder`,
and a failed insert adds nothing. -/
def insertB (st : BuilderState) (k : List Nat) (v : Nat) :
    Except InsertError BuilderState :=
  match st.lastKey with
  | none => Except.ok ⟨some k, st.pairs ++ [(k, v)]⟩
  | some p =>
    if keyLt p k then Except.ok ⟨some k, st.pairs ++ [(k, v)]⟩
    else if p = k then Except.error InsertError.duplicateKey
    else Except.error InsertError.outOfOrder

/-- Insert each pair in order, stopping at the first error
(`MapBuilder::extend_iter` semantics). -/
def runInserts : BuilderState → List (List Nat × Nat) → Except InsertError BuilderState
  | st, [] => Except.ok st
  | st, kv :: rest =>
    match insertB st kv.1 kv.2 with
    | Except.ok st' => runInserts st' rest
    | Except.error e => Except.error e

theorem runInserts_ok :
    ∀ (S : List (List Nat × Nat)) (st : BuilderState),
      strictlyAscending S = true →
      (∀ p, st.lastKey = some p → ∀ kv ∈ S, keyLt p kv.1 = true) →
      ∃ st', runInserts st S = Except.ok st' ∧ st'.pairs = st.pairs ++ S := by
  intro S
  induction S with
  | nil => intro st _ _; exact ⟨st, rfl, by simp⟩
  | cons kv S' ih =>
    intro st hasc hlast
    have hstep : insertB st kv.1 kv.2 = Except.ok ⟨some kv.1, st.pairs ++ [kv]⟩ := by
      rcases hlk : st.lastKey with _ | p
      · simp [insertB, hlk]
      · have hp := hlast p hlk kv (by simp)
        simp [insertB, hlk, hp]
    have hnext : ∀ p, (BuilderState.mk (some kv.1) (st.pairs ++ [kv])).lastKey = some p →
        ∀ kv' ∈ S', keyLt p kv'.1 = true := by
      intro p hp kv' hkv'
      simp at hp
      subst hp
      exact asc_head_lt hasc kv' hkv'
    rcases ih ⟨some kv.1, st.pairs ++ [kv]⟩ (asc_tail hasc) hnext with ⟨st', h1, h2⟩
    refine ⟨st', ?_, ?_⟩
    · simp [runInserts, hstep, h1]
    · simp at h2
      simp [h2]

/-- C1: for every lexicographically sorted sequence S of distinct (key,
value) pairs, inserting each pair of S in order through the builder
succeeds, and iterating the finished map with stream() yields exactly the
pairs of S in the same order, with equal keys and equal values. -/
theorem buildStream_roundTrip (S : List (List Nat × Nat))
    (h : strictlyAscending S = true) :
    ∃ st, runInserts ⟨none, []⟩ S = Except.ok st ∧ st.pairs = S ∧
      streamNode (buildFst st.pairs) = S := by
  rcases runInserts_ok S ⟨none, []⟩ h (by intro p hp; simp at hp) with ⟨st, h1, h2⟩
  simp at h2
  refine ⟨st, h1, h2, ?_⟩
  rw [h2]
  exact streamNode_buildFst S h

/-- Witness for C1 at a concrete sorted input. -/
theorem buildStream_roundTrip_witness :
    ∃ st, runInserts ⟨none, []⟩ [([1], 5), ([1, 2], 6), ([2], 0)] = Except.ok st ∧
      st.pairs = [([1], 5), ([1, 2], 6), ([2], 0)] ∧
      streamNode (buildFst st.pairs) = [([1], 5), ([1, 2], 6), ([2], 0)] :=
  buildStream_roundTrip [([1], 5), ([1, 2], 6), ([2], 0)] (by decide)

/-- C3: with last-inserted key p, insert of (k, v) succeeds exactly when k
is strictly greater than p; an equal key fails with DuplicateKey and a
smaller key with OutOfOrder, and on success exactly the pair (k, v) is
appended. -/
theorem insertB_order (st : BuilderState) (p : List Nat)
    (h : st.lastKey = some p) (k : List Nat) (v : Nat) :
    ((∃ st', insertB st k v = Except.ok st') ↔ keyLt p k = true) ∧
    (k = p → insertB st k v = Except.error InsertError.duplicateKey) ∧
    (keyLt k p = true → insertB st k v = Except.error InsertError.outOfOrder) ∧
    (∀ st', insertB st k v = Except.ok st' →
      st'.pairs = st.pairs ++ [(k, v)] ∧ st'.lastKey = some k) := by
  by_cases hpk : keyLt p k = true
  · refine ⟨⟨fun _ => hpk, fun _ => ⟨⟨some k, st.pairs ++ [(k, v)]⟩, by simp [insertB, h, hpk]⟩⟩,
      ?_, ?_, ?_⟩
    · intro he
      subst he
      rw [keyLt_irrefl] at hpk
      exact absurd hpk (by simp)
    · intro hkp
      rw [keyLt_asymm hkp] at hpk
      exact absurd hpk (by simp)
    · intro st' hst'
      simp [insertB, h, hpk] at hst'
      rw [← hst']
      exact ⟨rfl, rfl⟩
  · have hpk' : keyLt p k = false := by
      cases hh : keyLt p k
      · rfl
      · exact absurd hh hpk
    by_cases hpe : p = k
    · subst hpe
      refine ⟨⟨?_, fun hc => absurd hc hpk⟩, fun _ => by simp [insertB, h, hpk'], ?_, ?_⟩
      · intro ⟨st', hst'⟩
        simp [insertB, h, hpk'] at hst'
      · intro hkp
        rw [keyLt_irrefl] at hkp
        exact absurd hkp (by simp)
      · intro st' hst'
        simp [insertB, h, hpk'] at hst'
    · refine ⟨⟨?_, fun hc => absurd hc hpk⟩, fun he => absurd he.symm hpe, ?_, ?_⟩
      · intro ⟨st', hst'⟩
        simp [insertB, h, hpk', hpe] at hst'
      · intro _
        simp [insertB, h, hpk', hpe]
      · intro st' hst'
        simp [insertB, h, hpk', hpe] at hst'

/-- Witness for C3 at concrete inputs: after key [3], inserting [3, 1]
succeeds, re-inserting [3] is a duplicate, and inserting [2] is out of
order. -/
theorem insertB_order_witness :
    ((∃ st', insertB ⟨some [3], [([3], 1)]⟩ [3, 1] 2 = Except.ok st') ↔
      keyLt [3] [3, 1] = true) ∧
    ([3] = [3] → insertB ⟨some [3], [([3], 1)]⟩ [3] 2 =
      Except.error InsertError.duplicateKey) ∧
    (keyLt [2] [3] = true → insertB ⟨some [3], [([3], 1)]⟩ [2] 2 =
      Except.error InsertError.outOfOrder) := by
  refine ⟨(insertB_order ⟨some [3], [([3], 1)]⟩ [3] rfl [3, 1] 2).1,
    (insertB_order ⟨some [3], [([3], 1)]⟩ [3] rfl [3] 2).2.1,
    (insertB_order ⟨some [3], [([3], 1)]⟩ [3] rfl [2] 2).2.2.1⟩

/-- Resolve the transition for input byte `b` in a transition list. -/
def findTrans (b : Nat) : List (Nat × Nat × Node) → Option (Nat × Node)
  | [] => none
  | (b', o, c) :: ts => if b' = b then some (o, c) else findTrans b ts

/-- Point lookup: walk the graph along the key accumulating output
increments; return the sum plus the final output iff the terminal node is
final, else none. -/
def getNode : Node → List Nat → Option Nat
  | Node.mk f fo _, [] => if f then some fo else none
  | Node.mk _ _ ts, b :: rest =>
    match findTrans b ts with
    | some (o, c) => (getNode c rest).map (fun w => o + w)
    | none => none

/-- Membership test: the key resolves to a value. -/
def containsKey (n : Node) (k : List Nat) : Bool := (getNode n k).isSome

example : getNode (buildFst [([1], 1), ([1, 2], 5)]) [1, 2] = some 5 := by decide

example : getNode (buildFst [([1], 1), ([1, 2], 5)]) [2] = none := by decide

/-- Association-list lookup of a key in a pair list. -/
def lookupKey : List (List Nat × Nat) → List Nat → Option Nat
  | [], _ => none
  | kv :: L, k => if kv.1 = k then some kv.2 else lookupKey L k

theorem lookupKey_append (L1 L2 : List (List Nat × Nat)) (k : List Nat) :
    lookupKey (L1 ++ L2) k =
      match lookupKey L1 k with
      | some v => some v
      | none => lookupKey L2 k := by
  induction L1 with
  | nil => simp [lookupKey]
  | cons a L1 ih =>
    by_cases h : a.1 = k <;> simp [lookupKey, h, ih]

theorem lookupKey_mapped (b0 o : Nat) (L : List (List Nat × Nat)) (b : Nat)
    (rest : List Nat) :
    lookupKey (L.map (fun kv => (b0 :: kv.1, o + kv.2))) (b :: rest) =
      if b0 = b then (lookupKey L rest).map (fun w => o + w) else none := by
  induction L with
  | nil => simp [lookupKey]
  | cons a L ih =>
    by_cases hb : b0 = b
    · subst hb
      by_cases ha : a.1 = rest
      · simp [lookupKey, ha]
      · simp [lookupKey, ha, ih]
    · simp [lookupKey, hb, ih]

theorem lookupKey_streamTrans_none (b : Nat) (rest : List Nat) :
    ∀ (ts : List (Nat × Nat × Node)), (∀ t ∈ ts, t.1 ≠ b) →
      lookupKey (streamTrans ts) (b :: rest) = none := by
  intro ts
  induction ts with
  | nil => intro _; simp [streamTrans, lookupKey]
  | cons t ts ih =>
    intro h
    rcases t with ⟨b', o, c⟩
    have hb' : b' ≠ b := h (b', o, c) (by simp)
    simp only [streamTrans, lookupKey_append, lookupKey_mapped, if_neg hb',
      ih (fun t ht => h t (List.mem_cons_of_mem _ ht))]

theorem lookupKey_nil_key (L : List (List Nat × Nat))
    (h : ∀ kv ∈ L, kv.1 ≠ ([] : List Nat)) : lookupKey L [] = none := by
  induction L with
  | nil => rfl
  | cons a L ih =>
    have := h a (by simp)
    simp only [lookupKey, if_neg this]
    exact ih (fun kv hkv => h kv (List.mem_cons_of_mem _ hkv))

theorem mem_streamTrans_shape :
    ∀ (ts : List (Nat × Nat × Node)) (kv : List Nat × Nat), kv ∈ streamTrans ts →
      ∃ b o c x w, (b, o, c) ∈ ts ∧ (x, w) ∈ streamNode c ∧ kv = (b :: x, o + w) := by
  intro ts
  induction ts with
  | nil => intro kv h; simp [streamTrans] at h
  | cons t ts ih =>
    intro kv h
    rcases t with ⟨b, o, c⟩
    simp only [streamTrans, List.mem_append] at h
    rcases h with h | h
    · rcases ih kv h with ⟨b', o', c', x, w, h1, h2, h3⟩
      exact ⟨b', o', c', x, w, List.mem_cons_of_mem _ h1, h2, h3⟩
    · rcases List.mem_map.1 h with ⟨⟨x, w⟩, hx, hkv⟩
      exact ⟨b, o, c, x, w, by simp, hx, hkv.symm⟩

theorem keyLt_cons_cases {x y : Nat} {xs ys : List Nat}
    (h : keyLt (x :: xs) (y :: ys) = true) : x < y ∨ (x = y ∧ keyLt xs ys = true) := by
  by_cases hxy : x < y
  · exact Or.inl hxy
  · by_cases hxe : x = y
    · exact Or.inr ⟨hxe, by simpa [keyLt, hxy, hxe] using h⟩
    · exfalso
      simp [keyLt, hxy, hxe] at h

/-- The structural invariant of reachable FST nodes: transition bytes are
strictly descending in storage order (hence strictly ascending in walk
order, with no duplicates), every destination is well-formed, and every
destination carries at least one key. -/
inductive Wf : Node → Prop where
  | mk (f : Bool) (fo : Nat) (ts : List (Nat × Nat × Node)) :
      List.Pairwise (fun s t => t.1 < s.1) ts →
      (∀ t ∈ ts, Wf t.2.2) →
      (∀ t ∈ ts, streamNode t.2.2 ≠ []) →
      Wf (Node.mk f fo ts)

theorem wf_leaf (f : Bool) (fo : Nat) : Wf (Node.mk f fo []) :=
  Wf.mk f fo [] (by simp) (by simp) (by simp)

theorem wf_freshNode (k : List Nat) : Wf (freshNode k) := by
  induction k with
  | nil => exact wf_leaf true 0
  | cons b rest ih =>
    refine Wf.mk false 0 [(b, 0, freshNode rest)] (by simp) ?_ ?_
    · intro t ht
      have : t = (b, 0, freshNode rest) := by simpa using ht
      subst this
      exact ih
    · intro t ht
      have : t = (b, 0, freshNode rest) := by simpa using ht
      subst this
      simp [streamNode_freshNode]

theorem wf_pushDown (r : Nat) {n : Node} (h : Wf n) : Wf (pushDown r n) := by
  rcases n with ⟨f, fo, ts⟩
  cases h with
  | mk _ _ _ hp hw hs =>
    refine Wf.mk _ _ _ ?_ ?_ ?_
    · rw [List.pairwise_map]
      exact hp
    · intro t ht
      rcases List.mem_map.1 ht with ⟨t0, ht0, hteq⟩
      rw [← hteq]
      exact hw t0 ht0
    · intro t ht
      rcases List.mem_map.1 ht with ⟨t0, ht0, hteq⟩
      rw [← hteq]
      exact hs t0 ht0

theorem wf_addToNode :
    ∀ (k : List Nat) (n : Node) (v : Nat),
      (∀ kv ∈ streamNode n, keyLt kv.1 k = true) → Wf n → Wf (addToNode n k v) := by
  intro k
  induction k with
  | nil =>
    intro n v _ hwf
    rcases n with ⟨f, fo, ts⟩
    cases hwf with
    | mk _ _ _ hp hw hs => exact Wf.mk true v ts hp hw hs
  | cons b rest ih =>
    intro n v hk hwf
    rcases n with ⟨f, fo, ts⟩
    match ts with
    | [] =>
      simp only [addToNode]
      refine Wf.mk f fo [(b, v, freshNode rest)] (by simp) ?_ ?_
      · intro t ht
        have : t = (b, v, freshNode rest) := by simpa using ht
        subst this
        exact wf_freshNode rest
      · intro t ht
        have : t = (b, v, freshNode rest) := by simpa using ht
        subst this
        simp [streamNode_freshNode]
    | (b', o, c) :: ts' =>
      cases hwf with
      | mk _ _ _ hp hw hs =>
        rw [List.pairwise_cons] at hp
        by_cases hbb : b' = b
        · subst hbb
          have hsub : ∀ kv ∈ streamNode (pushDown (o - min o v) c),
              keyLt kv.1 rest = true := by
            intro kv hkv
            rw [streamNode_pushDown] at hkv
            rcases List.mem_map.1 hkv with ⟨kv0, hkv0, hkveq⟩
            have hmem : (b' :: kv0.1, o + kv0.2) ∈
                streamNode (Node.mk f fo ((b', o, c) :: ts')) := by
              rw [streamNode_mk_cons]
              apply List.mem_append_right
              exact List.mem_map.2 ⟨kv0, hkv0, rfl⟩
            have := hk _ hmem
            rw [keyLt_cons_same] at this
            rw [← hkveq] at *
            exact this
          have hwc : Wf c := hw (b', o, c) (by simp)
          have hwc' : Wf (addToNode (pushDown (o - min o v) c) rest (v - min o v)) :=
            ih _ _ hsub (wf_pushDown _ hwc)
          have hsc' : streamNode (addToNode (pushDown (o - min o v) c) rest (v - min o v)) ≠ [] := by
            rw [streamNode_addToNode rest _ _ hsub]
            simp
          simp only [addToNode]
          rw [if_pos trivial]
          refine Wf.mk f fo _ ?_ ?_ ?_
          · rw [List.pairwise_cons]
            exact ⟨hp.1, hp.2⟩
          · intro t ht
            rcases List.mem_cons.1 ht with hh | ht'
            · subst hh
              exact hwc'
            · exact hw t (List.mem_cons_of_mem _ ht')
          · intro t ht
            rcases List.mem_cons.1 ht with hh | ht'
            · subst hh
              exact hsc'
            · exact hs t (List.mem_cons_of_mem _ ht')
        · have hnec : streamNode c ≠ [] := hs (b', o, c) (by simp)
          rcases List.exists_mem_of_ne_nil _ hnec with ⟨kv0, hkv0⟩
          have hmem : (b' :: kv0.1, o + kv0.2) ∈
              streamNode (Node.mk f fo ((b', o, c) :: ts')) := by
            rw [streamNode_mk_cons]
            apply List.mem_append_right
            exact List.mem_map.2 ⟨kv0, hkv0, rfl⟩
          have hblt : b' < b := by
            rcases keyLt_cons_cases (hk _ hmem) with hlt | ⟨heq, _⟩
            · exact hlt
            · exact absurd heq hbb
          simp only [addToNode, if_neg hbb]
          refine Wf.mk f fo _ ?_ ?_ ?_
          · rw [List.pairwise_cons]
            refine ⟨?_, by rw [List.pairwise_cons]; exact hp⟩
            intro t ht
            rcases List.mem_cons.1 ht with hh | ht'
            · subst hh
              exact hblt
            · exact Nat.lt_trans (hp.1 t ht') hblt
          · intro t ht
            rcases List.mem_cons.1 ht with hh | ht'
            · subst hh
              exact wf_freshNode rest
            · rcases List.mem_cons.1 ht' with hh' | ht''
              · subst hh'
                exact hw _ (by simp)
              · exact hw t (List.mem_cons_of_mem _ ht'')
          · intro t ht
            rcases List.mem_cons.1 ht with hh | ht'
            · subst hh
              simp [streamNode_freshNode]
            · rcases List.mem_cons.1 ht' with hh' | ht''
              · subst hh'
                exact hs _ (by simp)
              · exact hs t (List.mem_cons_of_mem _ ht'')

theorem wf_foldl :
    ∀ (S : List (List Nat × Nat)) (n : Node),
      strictlyAscending (streamNode n ++ S) = true → Wf n →
      Wf (S.foldl (fun m kv => addToNode m kv.1 kv.2) n) := by
  intro S
  induction S with
  | nil => intro n _ hwf; exact hwf
  | cons kv S' ih =>
    intro n h hwf
    have hlt : ∀ x ∈ streamNode n, keyLt x.1 kv.1 = true :=
      asc_all_before (streamNode n) kv S' h
    have hstep := streamNode_addToNode kv.1 n kv.2 hlt
    simp only [List.foldl_cons]
    apply ih
    · rw [hstep, List.append_assoc]
      simpa using h
    · exact wf_addToNode kv.1 n kv.2 hlt hwf

theorem wf_buildFst (S : List (List Nat × Nat))
    (h : strictlyAscending S = true) : Wf (buildFst S) := by
  apply wf_foldl S (Node.mk false 0 [])
  · simpa [streamNode, streamTrans] using h
  · exact wf_leaf false 0

theorem option_match_collapse (x : Option Nat) :
    (match x with | some v => some v | none => none) = x := by
  cases x <;> rfl

theorem getTrans_eq_lookup (b : Nat) (rest : List Nat) :
    ∀ (ts : List (Nat × Nat × Node)),
      List.Pairwise (fun s t => t.1 < s.1) ts →
      (∀ t ∈ ts, getNode t.2.2 rest = lookupKey (streamNode t.2.2) rest) →
      (match findTrans b ts with
       | some (o, c) => (getNode c rest).map (fun w => o + w)
       | none => none) = lookupKey (streamTrans ts) (b :: rest) := by
  intro ts
  induction ts with
  | nil => intro _ _; simp [findTrans, streamTrans, lookupKey]
  | cons t ts' ih =>
    intro hp hg
    rcases t with ⟨b', o, c⟩
    rw [List.pairwise_cons] at hp
    simp only [streamTrans]
    rw [lookupKey_append, lookupKey_mapped]
    by_cases hbb : b' = b
    · subst hbb
      have hnone : lookupKey (streamTrans ts') (b' :: rest) = none := by
        apply lookupKey_streamTrans_none
        intro t ht
        exact Nat.ne_of_lt (hp.1 t ht)
      rw [hnone]
      have hhead := hg (b', o, c) (by simp)
      simp [findTrans, hhead]
    · have hne : ¬ (b' = b) := hbb
      rw [if_neg hne]
      have := ih hp.2 (fun t ht => hg t (List.mem_cons_of_mem _ ht))
      rw [option_match_collapse]
      simp only [findTrans, if_neg hne]
      exact this

theorem getNode_eq_lookup :
    ∀ (k : List Nat) (n : Node), Wf n →
      getNode n k = lookupKey (streamNode n) k := by
  intro k
  induction k with
  | nil =>
    intro n _
    rcases n with ⟨f, fo, ts⟩
    have hnone : lookupKey (streamTrans ts) [] = none := by
      apply lookupKey_nil_key
      intro kv hkv
      rcases mem_streamTrans_shape ts kv hkv with ⟨b, o, c, x, w, _, _, hkveq⟩
      rw [hkveq]
      simp
    cases f
    · simpa [getNode, streamNode] using hnone.symm
    · simp [getNode, streamNode, lookupKey, hnone]
  | cons b rest ih =>
    intro n hwf
    rcases n with ⟨f, fo, ts⟩
    cases hwf with
    | mk _ _ _ hp hw _ =>
      have hmain := getTrans_eq_lookup b rest ts hp (fun t ht => ih t.2.2 (hw t ht))
      have hfin : lookupKey (if f then [(([] : List Nat), fo)] else []) (b :: rest) = none := by
        cases f <;> simp [lookupKey]
      simp only [getNode, streamNode]
      rw [lookupKey_append, hfin, hmain]

theorem lookupKey_of_mem_asc {S : List (List Nat × Nat)} {k : List Nat} {v : Nat}
    (hasc : strictlyAscending S = true) (hmem : (k, v) ∈ S) :
    lookupKey S k = some v := by
  induction S with
  | nil => simp at hmem
  | cons a S' ih =>
    by_cases ha : a.1 = k
    · rcases List.mem_cons.1 hmem with hh | hmem'
      · rw [← hh] at ha ⊢
        simp [lookupKey]
      · exfalso
        have := asc_head_lt hasc (k, v) hmem'
        rw [ha] at this
        rw [keyLt_irrefl] at this
        exact Bool.false_ne_true this
    · rcases List.mem_cons.1 hmem with hh | hmem'
      · exfalso
        apply ha
        rw [← hh]
      · simp only [lookupKey, if_neg ha]
        exact ih (asc_tail hasc) hmem'

theorem lookupKey_isSome_iff (L : List (List Nat × Nat)) (k : List Nat) :
    (lookupKey L k).isSome = true ↔ k ∈ L.map Prod.fst := by
  induction L with
  | nil => simp [lookupKey]
  | cons a L ih =>
    by_cases ha : a.1 = k
    · simp [lookupKey, ha]
    · simp only [lookupKey, if_neg ha, List.map_cons, List.mem_cons, ih]
      constructor
      · intro hmem
        exact Or.inr hmem
      · intro hmem
        rcases hmem with hh | hmem'
        · exact absurd hh.symm ha
        · exact hmem'

theorem lookupKey_eq_none_of_not_mem {L : List (List Nat × Nat)} {k : List Nat}
    (h : k ∉ L.map Prod.fst) : lookupKey L k = none := by
  cases hl : lookupKey L k with
  | none => rfl
  | some v =>
    exfalso
    apply h
    rw [← lookupKey_isSome_iff L k, hl]
    rfl

/-- C2: for a map built from a strictly ascending sequence S, get returns
the associated value for every key of S and none for any other key, and
contains_key holds exactly for the keys of S. -/
theorem mapGet_correct (S : List (List Nat × Nat)) (h : strictlyAscending S = true)
    (k : List Nat) :
    (∀ v, (k, v) ∈ S → getNode (buildFst S) k = some v) ∧
    (k ∉ S.map Prod.fst → getNode (buildFst S) k = none) ∧
    (containsKey (buildFst S) k = true ↔ k ∈ S.map Prod.fst) := by
  have hg : getNode (buildFst S) k = lookupKey S k := by
    rw [getNode_eq_lookup k _ (wf_buildFst S h), streamNode_buildFst S h]
  refine ⟨?_, ?_, ?_⟩
  · intro v hv
    rw [hg]
    exact lookupKey_of_mem_asc h hv
  · intro hnm
    rw [hg]
    exact lookupKey_eq_none_of_not_mem hnm
  · rw [containsKey, hg]
    exact lookupKey_isSome_iff S k

/-- Witness for C2 at a concrete map and keys. -/
theorem mapGet_correct_witness :
    (∀ v, (([2] : List Nat), v) ∈ [([1], 1), ([2], 2)] →
      getNode (buildFst [([1], 1), ([2], 2)]) [2] = some v) ∧
    (([2] : List Nat) ∉ ([([1], 1), ([2], 2)] : List (List Nat × Nat)).map Prod.fst →
      getNode (buildFst [([1], 1), ([2], 2)]) [2] = none) ∧
    (containsKey (buildFst [([1], 1), ([2], 2)]) [2] = true ↔
      ([2] : List Nat) ∈ ([([1], 1), ([2], 2)] : List (List Nat × Nat)).map Prod.fst) :=
  mapGet_correct [([1], 1), ([2], 2)] (by decide) [2]

/-- A bound on the key range of a stream. -/
inductive Bound where
  | unbounded
  | included (k : List Nat)
  | excluded (k : List Nat)
deriving DecidableEq, Repr

/-- Modelled from the spec: `raw::StreamBuilder`, which the map's `range()`
wraps, is not under `src/`.  A range query configuration holds the lower
bound, the upper bound and the iteration direction; each setter overwrites
its field. -/
structure StreamBuilder where
  min : Bound
  max : Bound
  isBackward : Bool
deriving DecidableEq, Repr

/-- The configuration produced by `range()`: no bounds, forward. -/
def rangeAll : StreamBuilder := ⟨Bound.unbounded, Bound.unbounded, false⟩

/-- Set a greater-than-or-equal lower bound. -/
def StreamBuilder.ge (sb : StreamBuilder) (k : List Nat) : StreamBuilder :=
  { sb with min := Bound.included k }

/-- Set a strictly-greater lower bound. -/
def StreamBuilder.gt (sb : StreamBuilder) (k : List Nat) : StreamBuilder :=
  { sb with min := Bound.excluded k }

/-- Set a less-than-or-equal upper bound. -/
def StreamBuilder.le (sb : StreamBuilder) (k : List Nat) : StreamBuilder :=
  { sb with max := Bound.included k }

/-- Set a strictly-less upper bound. -/
def StreamBuilder.lt (sb : StreamBuilder) (k : List Nat) : StreamBuilder :=
  { sb with max := Bound.excluded k }

/-- Request reverse iteration. -/
def StreamBuilder.backward (sb : StreamBuilder) : StreamBuilder :=
  { sb with isBackward := true }

def aboveMin : Bound → List Nat → Bool
  | Bound.unbounded, _ => true
  | Bound.included a, k => keyLe a k
  | Bound.excluded a, k => keyLt a k

def belowMax : Bound → List Nat → Bool
  | Bound.unbounded, _ => true
  | Bound.included a, k => keyLe k a
  | Bound.excluded a, k => keyLt k a

def inBounds (sb : StreamBuilder) (k : List Nat) : Bool :=
  aboveMin sb.min k && belowMax sb.max k

/-- Modelled from the spec: the bound-filtered walk of the streaming
walker (yield a key iff it lies within the configured bounds), reversed
when backward iteration was requested. -/
def intoStream (n : Node) (sb : StreamBuilder) : List (List Nat × Nat) :=
  if sb.isBackward then ((streamNode n).filter (fun kv => inBounds sb kv.1)).reverse
  else (streamNode n).filter (fun kv => inBounds sb kv.1)

theorem asc_cons_of {a : List Nat × Nat} {l : List (List Nat × Nat)}
    (hl : strictlyAscending l = true) (h : ∀ x ∈ l, keyLt a.1 x.1 = true) :
    strictlyAscending (a :: l) = true := by
  cases l with
  | nil => rfl
  | cons b t =>
    simp only [strictlyAscending, Bool.and_eq_true]
    exact ⟨h b (by simp), hl⟩

theorem asc_filter (p : List Nat × Nat → Bool) :
    ∀ S, strictlyAscending S = true → strictlyAscending (S.filter p) = true := by
  intro S
  induction S with
  | nil => intro _; rfl
  | cons a S' ih =>
    intro h
    by_cases hp : p a = true
    · rw [List.filter_cons_of_pos hp]
      apply asc_cons_of (ih (asc_tail h))
      intro x hx
      exact asc_head_lt h x (List.mem_of_mem_filter hx)
    · rw [List.filter_cons_of_neg (by simpa using hp)]
      exact ih (asc_tail h)

/-- C4: for a map built from a strictly ascending S, the stream of
range().ge(a).lt(b) yields exactly the pairs of S with a ≤ k < b, still in
ascending order, and backward() yields the same pairs reversed. -/
theorem range_ge_lt_correct (S : List (List Nat × Nat))
    (h : strictlyAscending S = true) (a b : List Nat) :
    intoStream (buildFst S) ((rangeAll.ge a).lt b) =
      S.filter (fun kv => keyLe a kv.1 && keyLt kv.1 b) ∧
    strictlyAscending (intoStream (buildFst S) ((rangeAll.ge a).lt b)) = true ∧
    intoStream (buildFst S) (((rangeAll.ge a).lt b).backward) =
      (S.filter (fun kv => keyLe a kv.1 && keyLt kv.1 b)).reverse := by
  have hs := streamNode_buildFst S h
  have h1 : intoStream (buildFst S) ((rangeAll.ge a).lt b) =
      S.filter (fun kv => keyLe a kv.1 && keyLt kv.1 b) := by
    simp only [intoStream, hs]
    rfl
  refine ⟨h1, ?_, ?_⟩
  · rw [h1]
    exact asc_filter _ S h
  · simp only [intoStream, hs]
    rfl

/-- Witness for C4 at a concrete map and bounds. -/
theorem range_ge_lt_correct_witness :
    intoStream (buildFst [([1], 1), ([2], 2), ([3], 3), ([4], 4)])
        ((rangeAll.ge [2]).lt [4]) =
      ([([1], 1), ([2], 2), ([3], 3), ([4], 4)] : List (List Nat × Nat)).filter
        (fun kv => keyLe [2] kv.1 && keyLt kv.1 [4]) ∧
    strictlyAscending (intoStream (buildFst [([1], 1), ([2], 2), ([3], 3), ([4], 4)])
        ((rangeAll.ge [2]).lt [4])) = true ∧
    intoStream (buildFst [([1], 1), ([2], 2), ([3], 3), ([4], 4)])
        (((rangeAll.ge [2]).lt [4]).backward) =
      (([([1], 1), ([2], 2), ([3], 3), ([4], 4)] : List (List Nat × Nat)).filter
        (fun kv => keyLe [2] kv.1 && keyLt kv.1 [4])).reverse :=
  range_ge_lt_correct [([1], 1), ([2], 2), ([3], 3), ([4], 4)] (by decide) [2] [4]

/-- C8: setting the same kind of bound twice keeps only the second
setting, for each of ge, gt, le and lt. -/
theorem bounds_overwrite (n : Node) (sb : StreamBuilder) (a b : List Nat) :
    intoStream n ((sb.ge a).ge b) = intoStream n (sb.ge b) ∧
    intoStream n ((sb.gt a).gt b) = intoStream n (sb.gt b) ∧
    intoStream n ((sb.le a).le b) = intoStream n (sb.le b) ∧
    intoStream n ((sb.lt a).lt b) = intoStream n (sb.lt b) :=
  ⟨rfl, rfl, rfl, rfl⟩

/-- Modelled from the spec: the automaton contract (`src/automaton/mod.rs`
is not under `src/`): a start state, terminal acceptance, a dead-state
predicate used for pruning, and a byte transition. -/
structure Automaton (σ : Type) where
  start : σ
  isMatch : σ → Bool
  canMatch : σ → Bool
  accept : σ → Nat → σ

mutual

/-- Modelled from the spec: the automaton-composed walk of the streaming
walker.  Yield a key at a final node iff the automaton state matches;
descend a transition only when the successor state can still match. -/
def searchNode {σ : Type} (A : Automaton σ) : Node → σ → List (List Nat × Nat)
  | Node.mk f fo ts, s =>
    (if f && A.isMatch s then [([], fo)] else []) ++ searchTrans A ts s

/-- Automaton-composed walk of a transition list, ascending byte order. -/
def searchTrans {σ : Type} (A : Automaton σ) :
    List (Nat × Nat × Node) → σ → List (List Nat × Nat)
  | [], _ => []
  | (b, o, c) :: ts, s =>
    searchTrans A ts s ++
      (if A.canMatch (A.accept s b) then
        (searchNode A c (A.accept s b)).map (fun kv => (b :: kv.1, o + kv.2))
      else [])

end

/-- The automaton whose every predicate holds: unit state, always matches. -/
def AlwaysMatch : Automaton Unit :=
  ⟨(), fun _ => true, fun _ => true, fun s _ => s⟩

/-- C7: searching with the always-matching automaton yields exactly the
same sequence of (key, value) pairs as the unfiltered stream. -/
theorem searchAlwaysMatch_eq_stream :
    ∀ n : Node, searchNode AlwaysMatch n AlwaysMatch.start = streamNode n := by
  apply node_strong_ind
    (fun n => searchNode AlwaysMatch n AlwaysMatch.start = streamNode n)
  intro f fo ts hIH
  have hts : ∀ ts' : List (Nat × Nat × Node),
      (∀ b o c, (b, o, c) ∈ ts' → (b, o, c) ∈ ts) →
      searchTrans AlwaysMatch ts' () = streamTrans ts' := by
    intro ts'
    induction ts' with
    | nil => intro _; rfl
    | cons t ts'' ih2 =>
      intro hsub
      rcases t with ⟨b, o, c⟩
      have hc := hIH b o c (hsub b o c (by simp))
      have hc' : searchNode AlwaysMatch c (AlwaysMatch.accept () b) = streamNode c := hc
      simp only [searchTrans, streamTrans]
      rw [if_pos (show AlwaysMatch.canMatch (AlwaysMatch.accept () b) = true from rfl)]
      rw [ih2 (fun b' o' c' h' => hsub b' o' c' (List.mem_cons_of_mem _ h'))]
      rw [hc']
  show searchNode AlwaysMatch (Node.mk f fo ts) () = streamNode (Node.mk f fo ts)
  simp only [searchNode, streamNode]
  rw [hts ts (fun _ _ _ h => h)]
  have hff : (f && AlwaysMatch.isMatch ()) = f := by cases f <;> rfl
  rw [hff]

/-- An occurrence of a key in one of the streams of a set operation: the
0-based stream index and the value the key has there. -/
structure IndexedValue where
  index : Nat
  value : Nat
deriving DecidableEq, Repr

/-- A map stream: a (sorted) list of (key, value) pairs. -/
abbrev MStream := List (List Nat × Nat)

/-- The keys currently at the head of each non-exhausted stream. -/
def headKeys : List MStream → List (List Nat)
  | [] => []
  | [] :: ss => headKeys ss
  | (kv :: _) :: ss => kv.1 :: headKeys ss

/-- The smaller of two keys. -/
def keyMin (a b : List Nat) : List Nat := if keyLt b a then b else a

/-- The smallest key at the head of any stream, if one exists. -/
def minKey? (streams : List MStream) : Option (List Nat) :=
  match headKeys streams with
  | [] => none
  | h :: t => some (t.foldl keyMin h)

/-- Drop the head of every stream whose head key equals `m`. -/
def advance (m : List Nat) : List MStream → List MStream
  | [] => []
  | [] :: ss => [] :: advance m ss
  | (kv :: rest) :: ss => (if kv.1 = m then rest else kv :: rest) :: advance m ss

/-- Collect `{index, value}` from every stream whose head key equals `m`,
indices counted from `i`. -/
def collectHeads (i : Nat) (m : List Nat) : List MStream → List IndexedValue
  | [] => []
  | [] :: ss => collectHeads (i + 1) m ss
  | (kv :: _) :: ss =>
    (if kv.1 = m then [⟨i, kv.2⟩] else []) ++ collectHeads (i + 1) m ss

/-- Collect `{index, value}` from every stream that contains key `k`
anywhere, indices counted from `i`. -/
def collectAll (i : Nat) (k : List Nat) : List MStream → List IndexedValue
  | [] => []
  | s :: ss =>
    (match lookupKey s k with
     | some v => [⟨i, v⟩]
     | none => []) ++ collectAll (i + 1) k ss

/-- Total number of pending items across all streams. -/
def totalLen (streams : List MStream) : Nat := (streams.map List.length).sum

theorem keyLe_refl (a : List Nat) : keyLe a a = true := by
  simp [keyLe]

theorem keyLe_of_lt {a b : List Nat} (h : keyLt a b = true) : keyLe a b = true := by
  simp [keyLe, h]

theorem keyLe_trans {a b c : List Nat} (h1 : keyLe a b = true) (h2 : keyLe b c = true) :
    keyLe a c = true := by
  simp only [keyLe, Bool.or_eq_true, decide_eq_true_eq] at h1 h2 ⊢
  rcases h1 with h1 | h1
  · rcases h2 with h2 | h2
    · exact Or.inl (keyLt_trans h1 h2)
    · subst h2; exact Or.inl h1
  · subst h1
    exact h2

theorem keyMin_le_left (a b : List Nat) : keyLe (keyMin a b) a = true := by
  by_cases h : keyLt b a = true
  · simp [keyMin, h, keyLe]
  · have hf : keyLt b a = false := by
      cases hh : keyLt b a
      · rfl
      · exact absurd hh h
    simp [keyMin, hf, keyLe_refl]

theorem keyMin_le_right (a b : List Nat) : keyLe (keyMin a b) b = true := by
  by_cases h : keyLt b a = true
  · simp [keyMin, h, keyLe_refl]
  · have hf : keyLt b a = false := by
      cases hh : keyLt b a
      · rfl
      · exact absurd hh h
    simp only [keyMin, hf, Bool.false_eq_true, if_false]
    rcases keyLt_total a b with h' | h' | h'
    · exact keyLe_of_lt h'
    · subst h'; exact keyLe_refl a
    · rw [h'] at hf; exact absurd hf (by simp)

theorem foldl_keyMin_mem : ∀ (t : List (List Nat)) (h : List Nat),
    t.foldl keyMin h ∈ h :: t := by
  intro t
  induction t with
  | nil => intro h; simp
  | cons x t ih =>
    intro h
    simp only [List.foldl_cons]
    rcases List.mem_cons.1 (ih (keyMin h x)) with hh | hh
    · rw [hh]
      by_cases hx : keyLt x h = true
      · simp [keyMin, hx]
      · have hf : keyLt x h = false := by
          cases h2 : keyLt x h
          · rfl
          · exact absurd h2 hx
        simp [keyMin, hf]
    · simp [List.mem_cons_of_mem, hh]

theorem foldl_keyMin_le : ∀ (t : List (List Nat)) (h : List Nat),
    keyLe (t.foldl keyMin h) h = true ∧ ∀ x ∈ t, keyLe (t.foldl keyMin h) x = true := by
  intro t
  induction t with
  | nil => intro h; exact ⟨keyLe_refl h, by simp⟩
  | cons x t ih =>
    intro h
    rcases ih (keyMin h x) with ⟨ih1, ih2⟩
    refine ⟨keyLe_trans ih1 (keyMin_le_left h x), ?_⟩
    intro y hy
    rcases List.mem_cons.1 hy with hh | hh
    · rw [hh]
      exact keyLe_trans ih1 (keyMin_le_right h x)
    · exact ih2 y hh

theorem minKey_mem {streams : List MStream} {m : List Nat}
    (h : minKey? streams = some m) : m ∈ headKeys streams := by
  unfold minKey? at h
  cases hh : headKeys streams with
  | nil => rw [hh] at h; simp at h
  | cons a t =>
    rw [hh] at h
    simp only [Option.some.injEq] at h
    rw [← h, ← hh]
    rw [hh]
    exact foldl_keyMin_mem t a

theorem minKey_le {streams : List MStream} {m : List Nat}
    (h : minKey? streams = some m) : ∀ x ∈ headKeys streams, keyLe m x = true := by
  unfold minKey? at h
  cases hh : headKeys streams with
  | nil => rw [hh] at h; simp at h
  | cons a t =>
    rw [hh] at h
    simp only [Option.some.injEq] at h
    subst h
    intro x hx
    rcases List.mem_cons.1 hx with hxa | hxt
    · subst hxa
      exact (foldl_keyMin_le t x).1
    · exact (foldl_keyMin_le t a).2 x hxt

theorem advance_len_le : ∀ (streams : List MStream) (m : List Nat),
    totalLen (advance m streams) ≤ totalLen streams := by
  intro streams m
  induction streams with
  | nil => simp [advance]
  | cons s ss ih =>
    cases s with
    | nil => simpa [advance, totalLen] using ih
    | cons kv rest =>
      by_cases hm : kv.1 = m
      · simp only [advance, if_pos hm, totalLen, List.map_cons, List.sum_cons]
        have := ih
        simp only [totalLen] at this
        simp
        omega
      · simp only [advance, if_neg hm, totalLen, List.map_cons, List.sum_cons]
        have := ih
        simp only [totalLen] at this
        omega

theorem advance_len : ∀ (streams : List MStream) (m : List Nat),
    m ∈ headKeys streams → totalLen (advance m streams) < totalLen streams := by
  intro streams
  induction streams with
  | nil => intro m hm; simp [headKeys] at hm
  | cons s ss ih =>
    intro m hm
    cases s with
    | nil =>
      simp only [headKeys] at hm
      simpa [advance, totalLen] using ih m hm
    | cons kv rest =>
      by_cases hkv : kv.1 = m
      · simp only [advance, if_pos hkv, totalLen, List.map_cons, List.sum_cons]
        have := advance_len_le ss m
        simp only [totalLen] at this
        simp
        omega
      · simp only [headKeys] at hm
        rcases List.mem_cons.1 hm with hh | hh
        · exact absurd hh.symm hkv
        · simp only [advance, if_neg hkv, totalLen, List.map_cons, List.sum_cons]
          have := ih m hh
          simp only [totalLen] at this
          omega

/-- Modelled from the spec: the generic heap-merged set-operation driver
(`raw::OpBuilder` is not under `src/`).  Repeatedly take the smallest key
among the stream heads, collect the `{index, value}` occurrences of that
key, let the operation's `emit` decide whether (and with which value list)
the key is yielded, then advance the participating streams. -/
def runOp (emit : List IndexedValue → Option (List IndexedValue))
    (streams : List MStream) : List (List Nat × List IndexedValue) :=
  match h : minKey? streams with
  | none => []
  | some m =>
    (match emit (collectHeads 0 m streams) with
     | some out => [(m, out)]
     | none => []) ++ runOp emit (advance m streams)
termination_by totalLen streams
decreasing_by exact advance_len streams m (minKey_mem h)

theorem headKeys_nil : ∀ (ss : List MStream), headKeys ss = [] → ∀ s ∈ ss, s = [] := by
  intro ss
  induction ss with
  | nil => intro _ s hs; simp at hs
  | cons s0 ss ih =>
    intro h s hs
    cases s0 with
    | nil =>
      rcases List.mem_cons.1 hs with hh | hh
      · exact hh
      · exact ih (by simpa [headKeys] using h) s hh
    | cons kv rest => simp [headKeys] at h

theorem minKey?_none {streams : List MStream} (h : minKey? streams = none) :
    ∀ s ∈ streams, s = [] := by
  apply headKeys_nil
  unfold minKey? at h
  cases hh : headKeys streams with
  | nil => rfl
  | cons a t => rw [hh] at h; simp at h

theorem collectAll_eq_nil_iff :
    ∀ (ss : List MStream) (i : Nat) (k : List Nat),
      collectAll i k ss = [] ↔ ∀ s ∈ ss, lookupKey s k = none := by
  intro ss
  induction ss with
  | nil => intro i k; simp [collectAll]
  | cons s ss ih =>
    intro i k
    cases hl : lookupKey s k with
    | some v =>
      simp only [collectAll, hl]
      constructor
      · intro h; simp at h
      · intro h
        have := h s (by simp)
        rw [hl] at this
        simp at this
    | none =>
      simp only [collectAll, hl, List.nil_append]
      rw [ih]
      constructor
      · intro h s' hs'
        rcases List.mem_cons.1 hs' with hh | hh
        · rw [hh]; exact hl
        · exact h s' hh
      · intro h s' hs'
        exact h s' (List.mem_cons_of_mem _ hs')

theorem keyLt_of_le_ne {m a : List Nat} (hle : keyLe m a = true) (hne : a ≠ m) :
    keyLt m a = true := by
  simp only [keyLe, Bool.or_eq_true, decide_eq_true_eq] at hle
  rcases hle with h | h
  · exact h
  · exact absurd h.symm hne

theorem lookup_tail_none {kv : List Nat × Nat} {rest : MStream} {m : List Nat}
    (hasc : strictlyAscending (kv :: rest) = true) (hm : keyLe m kv.1 = true) :
    lookupKey rest m = none := by
  apply lookupKey_eq_none_of_not_mem
  intro hmem
  rcases List.mem_map.1 hmem with ⟨kv', hkv', hk⟩
  have hlt : keyLt kv.1 m = true := by
    rw [← hk]
    exact asc_head_lt hasc kv' hkv'
  simp only [keyLe, Bool.or_eq_true, decide_eq_true_eq] at hm
  rcases hm with h | h
  · rw [keyLt_asymm h] at hlt
    exact Bool.false_ne_true hlt
  · rw [← h] at hlt
    rw [keyLt_irrefl] at hlt
    exact Bool.false_ne_true hlt

theorem lookup_head_none {kv : List Nat × Nat} {rest : MStream} {m : List Nat}
    (hasc : strictlyAscending (kv :: rest) = true) (hm : keyLe m kv.1 = true)
    (hne : kv.1 ≠ m) : lookupKey (kv :: rest) m = none := by
  simp only [lookupKey, if_neg hne]
  exact lookup_tail_none hasc hm

theorem head_mem_headKeys :
    ∀ (ss : List MStream), ∀ s ∈ ss, ∀ kv, s.head? = some kv → kv.1 ∈ headKeys ss := by
  intro ss
  induction ss with
  | nil => intro s hs; simp at hs
  | cons s0 ss ih =>
    intro s hs kv hkv
    rcases List.mem_cons.1 hs with hh | hh
    · subst hh
      cases s with
      | nil => simp at hkv
      | cons kv0 rest =>
        simp only [List.head?] at hkv
        cases hkv
        simp [headKeys]
    · cases s0 with
      | nil => simpa [headKeys] using ih s hh kv hkv
      | cons kv0 rest =>
        simp only [headKeys]
        exact List.mem_cons_of_mem _ (ih s hh kv hkv)

theorem collectHeads_eq_collectAll :
    ∀ (ss : List MStream) (i : Nat) (m : List Nat),
      (∀ s ∈ ss, strictlyAscending s = true) →
      (∀ s ∈ ss, ∀ kv, s.head? = some kv → keyLe m kv.1 = true) →
      collectHeads i m ss = collectAll i m ss := by
  intro ss
  induction ss with
  | nil => intro i m _ _; rfl
  | cons s ss ih =>
    intro i m hasc hle
    have ihx := ih (i + 1) m (fun s' hs' => hasc s' (List.mem_cons_of_mem _ hs'))
      (fun s' hs' => hle s' (List.mem_cons_of_mem _ hs'))
    cases s with
    | nil => simpa [collectHeads, collectAll, lookupKey] using ihx
    | cons kv rest =>
      by_cases hm : kv.1 = m
      · subst hm
        simp [collectHeads, collectAll, lookupKey, ihx]
      · have hnone : lookupKey (kv :: rest) m = none :=
          lookup_head_none (hasc (kv :: rest) (by simp))
            (hle (kv :: rest) (by simp) kv rfl) hm
        simp only [collectHeads, collectAll, if_neg hm, hnone, ihx,
          List.nil_append]

theorem advance_asc {m : List Nat} :
    ∀ (ss : List MStream), (∀ s ∈ ss, strictlyAscending s = true) →
      ∀ s ∈ advance m ss, strictlyAscending s = true := by
  intro ss
  induction ss with
  | nil => intro _ s hs; simp [advance] at hs
  | cons s0 ss ih =>
    intro h s hs
    have htail := ih (fun s' hs' => h s' (List.mem_cons_of_mem _ hs'))
    cases s0 with
    | nil =>
      rcases List.mem_cons.1 (by simpa [advance] using hs) with hh | hh
      · rw [hh]; rfl
      · exact htail s hh
    | cons kv rest =>
      by_cases hm : kv.1 = m
      · simp only [advance, if_pos hm] at hs
        rcases List.mem_cons.1 hs with hh | hh
        · rw [hh]
          exact asc_tail (h (kv :: rest) (by simp))
        · exact htail s hh
      · simp only [advance, if_neg hm] at hs
        rcases List.mem_cons.1 hs with hh | hh
        · rw [hh]
          exact h (kv :: rest) (by simp)
        · exact htail s hh

theorem collectAll_advance_ne {k m : List Nat} (hk : k ≠ m) :
    ∀ (ss : List MStream) (i : Nat),
      collectAll i k (advance m ss) = collectAll i k ss := by
  intro ss
  induction ss with
  | nil => intro i; rfl
  | cons s0 ss ih =>
    intro i
    cases s0 with
    | nil => simp only [advance, collectAll, ih]
    | cons kv rest =>
      by_cases hm : kv.1 = m
      · have hne : kv.1 ≠ k := by rw [hm]; exact fun he => hk he.symm
        simp only [advance, if_pos hm, collectAll, lookupKey, if_neg hne, ih]
      · simp only [advance, if_neg hm, collectAll, ih]

theorem collectAll_advance_self {m : List Nat} :
    ∀ (ss : List MStream) (i : Nat),
      (∀ s ∈ ss, strictlyAscending s = true) →
      (∀ s ∈ ss, ∀ kv, s.head? = some kv → keyLe m kv.1 = true) →
      collectAll i m (advance m ss) = [] := by
  intro ss
  induction ss with
  | nil => intro i _ _; rfl
  | cons s0 ss ih =>
    intro i hasc hle
    have ihx := ih (i + 1) (fun s' hs' => hasc s' (List.mem_cons_of_mem _ hs'))
      (fun s' hs' => hle s' (List.mem_cons_of_mem _ hs'))
    cases s0 with
    | nil => simpa [advance, collectAll, lookupKey] using ihx
    | cons kv rest =>
      by_cases hm : kv.1 = m
      · have hnone : lookupKey rest m = none :=
          lookup_tail_none (hasc (kv :: rest) (by simp)) (by rw [hm]; exact keyLe_refl m)
        simp only [advance, if_pos hm, collectAll, hnone, List.nil_append, ihx]
      · have hnone : lookupKey (kv :: rest) m = none :=
          lookup_head_none (hasc (kv :: rest) (by simp))
            (hle (kv :: rest) (by simp) kv rfl) hm
        simp only [advance, if_neg hm, collectAll, hnone, List.nil_append, ihx]

theorem headKeys_of_all_nil : ∀ (ss : List MStream), (∀ s ∈ ss, s = []) →
    headKeys ss = [] := by
  intro ss
  induction ss with
  | nil => intro _; rfl
  | cons s0 ss ih =>
    intro h
    have h0 := h s0 (by simp)
    subst h0
    simp only [headKeys]
    exact ih (fun s hs => h s (List.mem_cons_of_mem _ hs))

theorem runOp_none (emit : List IndexedValue → Option (List IndexedValue))
    (streams : List MStream) (h : minKey? streams = none) :
    runOp emit streams = [] := by
  unfold runOp
  split
  · rfl
  · rename_i m heq
    rw [h] at heq
    cases heq

theorem runOp_some (emit : List IndexedValue → Option (List IndexedValue))
    (streams : List MStream) (m : List Nat) (h : minKey? streams = some m) :
    runOp emit streams =
      (match emit (collectHeads 0 m streams) with
       | some out => [(m, out)]
       | none => []) ++ runOp emit (advance m streams) := by
  conv_lhs => rw [runOp]
  split
  · rename_i heq
    rw [h] at heq
    cases heq
  · rename_i m' heq
    rw [h] at heq
    cases heq
    rfl

theorem runOp_mem_iff (emit : List IndexedValue → Option (List IndexedValue))
    (hemit : emit [] = none) :
    ∀ (streams : List MStream), (∀ s ∈ streams, strictlyAscending s = true) →
    ∀ (k : List Nat) (out : List IndexedValue),
      ((k, out) ∈ runOp emit streams ↔ emit (collectAll 0 k streams) = some out) := by
  suffices H : ∀ (N : Nat) (streams : List MStream), totalLen streams ≤ N →
      (∀ s ∈ streams, strictlyAscending s = true) →
      ∀ k out, ((k, out) ∈ runOp emit streams ↔ emit (collectAll 0 k streams) = some out) from
    fun streams hasc k out => H (totalLen streams) streams le_rfl hasc k out
  intro N
  induction N with
  | zero =>
    intro streams hlen _ k out
    have hemp : ∀ s ∈ streams, s = [] := by
      intro s hs
      have h1 : s.length ≤ totalLen streams := by
        unfold totalLen
        exact List.le_sum_of_mem (List.mem_map_of_mem _ hs)
      have : s.length = 0 := by omega
      exact List.eq_nil_of_length_eq_zero this
    have hmk : minKey? streams = none := by
      unfold minKey?
      rw [headKeys_of_all_nil streams hemp]
    rw [runOp_none emit streams hmk]
    have hcnil : collectAll 0 k streams = [] := by
      rw [collectAll_eq_nil_iff]
      intro s hs
      rw [hemp s hs]
      rfl
    rw [hcnil, hemit]
    simp
  | succ N ih =>
    intro streams hlen hasc k out
    cases hmk : minKey? streams with
    | none =>
      rw [runOp_none emit streams hmk]
      have hcnil : collectAll 0 k streams = [] := by
        rw [collectAll_eq_nil_iff]
        intro s hs
        rw [minKey?_none hmk s hs]
        rfl
      rw [hcnil, hemit]
      simp
    | some m =>
      have hle : ∀ s ∈ streams, ∀ kv, s.head? = some kv → keyLe m kv.1 = true := by
        intro s hs kv hkv
        exact minKey_le hmk kv.1 (head_mem_headKeys streams s hs kv hkv)
      have hch : collectHeads 0 m streams = collectAll 0 m streams :=
        collectHeads_eq_collectAll streams 0 m hasc hle
      have hadv_len : totalLen (advance m streams) ≤ N := by
        have := advance_len streams m (minKey_mem hmk)
        omega
      have hadv_asc : ∀ s ∈ advance m streams, strictlyAscending s = true :=
        advance_asc streams hasc
      have ihadv := ih (advance m streams) hadv_len hadv_asc
      rw [runOp_some emit streams m hmk]
      rw [List.mem_append]
      by_cases hk : k = m
      · subst hk
        have hrec : ¬ ((k, out) ∈ runOp emit (advance k streams)) := by
          rw [ihadv k out, collectAll_advance_self streams 0 hasc hle, hemit]
          simp
        have hfst : (k, out) ∈
            (match emit (collectHeads 0 k streams) with
             | some o => [(k, o)]
             | none => []) ↔ emit (collectAll 0 k streams) = some out := by
          rw [← hch]
          cases he : emit (collectHeads 0 k streams) with
          | some o => simp [eq_comm]
          | none => simp
        constructor
        · intro hmem
          rcases hmem with hmem | hmem
          · exact hfst.1 hmem
          · exact absurd hmem hrec
        · intro he
          exact Or.inl (hfst.2 he)
      · have hfst : ¬ ((k, out) ∈
            (match emit (collectHeads 0 m streams) with
             | some o => [(m, o)]
             | none => [])) := by
          cases he : emit (collectHeads 0 m streams) with
          | some o => simp [hk]
          | none => simp
        rw [ihadv k out, collectAll_advance_ne hk streams 0]
        constructor
        · intro hmem
          rcases hmem with hmem | hmem
          · exact absurd hmem hfst
          · exact hmem
        · intro he
          exact Or.inr he

theorem collectAll_index_ge :
    ∀ (ss : List MStream) (i : Nat) (k : List Nat),
      ∀ iv ∈ collectAll i k ss, i ≤ iv.index := by
  intro ss
  induction ss with
  | nil => intro i k iv hiv; simp [collectAll] at hiv
  | cons s ss ih =>
    intro i k iv hiv
    simp only [collectAll, List.mem_append] at hiv
    rcases hiv with hiv | hiv
    · cases hl : lookupKey s k with
      | some v =>
        rw [hl] at hiv
        simp at hiv
        rw [hiv]
      | none =>
        rw [hl] at hiv
        simp at hiv
    · have := ih (i + 1) k iv hiv
      omega

theorem lookupKey_some_mem :
    ∀ {s : MStream} {k : List Nat} {v : Nat}, lookupKey s k = some v → (k, v) ∈ s := by
  intro s
  induction s with
  | nil => intro k v h; simp [lookupKey] at h
  | cons kv s ih =>
    intro k v h
    by_cases hk : kv.1 = k
    · simp only [lookupKey, if_pos hk] at h
      have : kv = (k, v) := by
        rcases kv with ⟨k', v'⟩
        simp at hk h
        simp [hk, h]
      rw [← this]
      simp
    · simp only [lookupKey, if_neg hk] at h
      exact List.mem_cons_of_mem _ (ih h)

/-- Modelled from the spec: the difference predicate of the set-operation
driver: yield iff index 0 contributed and no other stream did, and return
only index 0's value. -/
def diffEmit (ivs : List IndexedValue) : Option (List IndexedValue) :=
  if ivs.any (fun iv => iv.index == 0) && ivs.all (fun iv => iv.index == 0) then
    some (ivs.filter (fun iv => iv.index == 0))
  else none

/-- The difference stream: keys of stream 0 that occur in no other stream. -/
def difference (streams : List MStream) : List (List Nat × List IndexedValue) :=
  runOp diffEmit streams

/-- Modelled from the spec: the symmetric-difference predicate: yield iff
an odd number of streams contributed. -/
def symEmit (ivs : List IndexedValue) : Option (List IndexedValue) :=
  if ivs.length % 2 == 1 then some ivs else none

/-- The symmetric-difference stream: keys occurring in an odd number of
streams. -/
def symmetricDifference (streams : List MStream) : List (List Nat × List IndexedValue) :=
  runOp symEmit streams

theorem not_mem_of_lookupKey_none {s : MStream} {k : List Nat}
    (h : lookupKey s k = none) : k ∉ s.map Prod.fst := by
  intro hm
  have := (lookupKey_isSome_iff s k).2 hm
  rw [h] at this
  simp at this

theorem diffEmit_single (v : Nat) :
    diffEmit [⟨0, v⟩] = some [⟨0, v⟩] := by simp [diffEmit]

theorem diffEmit_after_zero (v : Nat) (iv : IndexedValue) (t : List IndexedValue)
    (hge : 1 ≤ iv.index) :
    diffEmit (⟨0, v⟩ :: iv :: t) = none := by
  have hne : (iv.index == 0) = false := by
    rw [beq_eq_false_iff_ne]
    omega
  simp [diffEmit, hne]

theorem diffEmit_no_zero (ivs : List IndexedValue)
    (hge : ∀ iv ∈ ivs, 1 ≤ iv.index) : diffEmit ivs = none := by
  have hany : ivs.any (fun iv => iv.index == 0) = false := by
    rw [List.any_eq_false]
    intro iv hiv
    have := hge iv hiv
    simp only [beq_iff_eq]
    omega
  simp [diffEmit, hany]

/-- C5: a key is yielded by the difference stream exactly when stream 0
contains it and no other stream does, and then the value list is exactly
index 0's entry. -/
theorem difference_correct (s0 : MStream) (rest : List MStream)
    (h0 : strictlyAscending s0 = true) (hr : ∀ s ∈ rest, strictlyAscending s = true)
    (k : List Nat) (out : List IndexedValue) :
    (k, out) ∈ difference (s0 :: rest) ↔
      ∃ v0, (k, v0) ∈ s0 ∧ (∀ s ∈ rest, k ∉ s.map Prod.fst) ∧
        out = [⟨0, v0⟩] := by
  have hasc : ∀ s ∈ s0 :: rest, strictlyAscending s = true := by
    intro s hs
    rcases List.mem_cons.1 hs with hh | hh
    · rw [hh]; exact h0
    · exact hr s hh
  rw [difference, runOp_mem_iff diffEmit (by decide) (s0 :: rest) hasc k out]
  have hc1ge : ∀ iv ∈ collectAll 1 k rest, 1 ≤ iv.index := collectAll_index_ge rest 1 k
  cases hl : lookupKey s0 k with
  | some v0 =>
    have hcons : collectAll 0 k (s0 :: rest) = ⟨0, v0⟩ :: collectAll 1 k rest := by
      simp [collectAll, hl]
    rw [hcons]
    cases hc1 : collectAll 1 k rest with
    | nil =>
      rw [diffEmit_single]
      constructor
      · intro h
        refine ⟨v0, lookupKey_some_mem hl, ?_, by simpa [eq_comm] using h⟩
        intro s hs
        exact not_mem_of_lookupKey_none ((collectAll_eq_nil_iff rest 1 k).1 hc1 s hs)
      · rintro ⟨v0', hmem, _, hout⟩
        have : lookupKey s0 k = some v0' := lookupKey_of_mem_asc h0 hmem
        rw [hl] at this
        simp only [Option.some.injEq] at this
        rw [hout, this]
    | cons iv t =>
      have hge : 1 ≤ iv.index := hc1ge iv (by rw [hc1]; simp)
      rw [diffEmit_after_zero v0 iv t hge]
      constructor
      · intro h; cases h
      · rintro ⟨v0', _, hnone, _⟩
        exfalso
        have : collectAll 1 k rest = [] := by
          rw [collectAll_eq_nil_iff]
          intro s hs
          exact lookupKey_eq_none_of_not_mem (hnone s hs)
        rw [hc1] at this
        cases this
  | none =>
    have hcons : collectAll 0 k (s0 :: rest) = collectAll 1 k rest := by
      simp [collectAll, hl]
    rw [hcons, diffEmit_no_zero _ hc1ge]
    constructor
    · intro h; cases h
    · rintro ⟨v0', hmem, _, _⟩
      exfalso
      have : lookupKey s0 k = some v0' := lookupKey_of_mem_asc h0 hmem
      rw [hl] at this
      cases this

/-- Witness for C5: in streams [[(1,1),(2,2)], [(1,10)]] the key [2] is in
stream 0 only, so the difference yields it with only index 0's value. -/
theorem difference_correct_witness :
    (([2] : List Nat), [(⟨0, 2⟩ : IndexedValue)]) ∈
      difference [[([1], 1), ([2], 2)], [([1], 10)]] :=
  (difference_correct [([1], 1), ([2], 2)] [[([1], 10)]] (by decide)
    (by decide) [2] [⟨0, 2⟩]).2 ⟨2, by decide, by decide, rfl⟩

theorem collectAll_length :
    ∀ (ss : List MStream) (i : Nat) (k : List Nat),
      (collectAll i k ss).length =
        (ss.filter (fun s => (lookupKey s k).isSome)).length := by
  intro ss
  induction ss with
  | nil => intro i k; rfl
  | cons s ss ih =>
    intro i k
    rw [List.filter_cons]
    cases hl : lookupKey s k with
    | some v =>
      simp only [collectAll, hl, Option.isSome_some, if_true, List.singleton_append,
        List.length_cons, ih]
    | none =>
      simp only [collectAll, hl, Option.isSome_none, Bool.false_eq_true, if_false,
        List.nil_append, ih]

/-- C6: the symmetric-difference stream yields a key exactly when the key
occurs in an odd number of the added streams. -/
theorem symmetricDifference_correct (streams : List MStream)
    (h : ∀ s ∈ streams, strictlyAscending s = true) (k : List Nat) :
    (∃ out, (k, out) ∈ symmetricDifference streams) ↔
      (streams.filter (fun s => decide (k ∈ s.map Prod.fst))).length % 2 = 1 := by
  have hfilter : streams.filter (fun s => (lookupKey s k).isSome) =
      streams.filter (fun s => decide (k ∈ s.map Prod.fst)) := by
    apply List.filter_congr
    intro s _
    by_cases hm : k ∈ s.map Prod.fst
    · rw [decide_eq_true hm, (lookupKey_isSome_iff s k).mpr hm]
    · rw [decide_eq_false hm]
      cases hh : (lookupKey s k).isSome
      · rfl
      · exact absurd ((lookupKey_isSome_iff s k).mp hh) hm
  have hlen : (collectAll 0 k streams).length =
      (streams.filter (fun s => decide (k ∈ s.map Prod.fst))).length := by
    rw [collectAll_length, hfilter]
  constructor
  · rintro ⟨out, hmem⟩
    rw [symmetricDifference,
      runOp_mem_iff symEmit (by decide) streams h k out] at hmem
    by_cases hodd : (collectAll 0 k streams).length % 2 == 1
    · rw [← hlen]
      simpa using hodd
    · simp only [symEmit] at hmem
      rw [if_neg (by simpa using hodd)] at hmem
      cases hmem
  · intro hodd
    refine ⟨collectAll 0 k streams, ?_⟩
    rw [symmetricDifference, runOp_mem_iff symEmit (by decide) streams h k _]
    simp only [symEmit]
    rw [if_pos]
    rw [hlen]
    simpa using hodd

/-- Witness for C6: key [1] occurs in all three streams (odd), so it is
yielded; the hypothesis sortedness is discharged concretely. -/
theorem symmetricDifference_correct_witness :
    ∃ out, (([1] : List Nat), out) ∈
      symmetricDifference [[([1], 1), ([2], 2)], [([1], 10)], [([1], 7)]] :=
  (symmetricDifference_correct [[([1], 1), ([2], 2)], [([1], 10)], [([1], 7)]]
    (by decide) [1]).2 (by decide)

/-- The deterministic finite automaton a regex compiles to.  Its internals
(the `dfa` submodule) are not under `src/`; only the interface used by the
`Automaton` impl in `src/regex/mod.rs` is needed: terminal acceptance and
a partial byte transition on dense state indices. -/
structure Dfa where
  isMatchSt : Nat → Bool
  acceptSt : Nat → Nat → Option Nat

/-- A compiled regex: the original pattern and its DFA
(struct `Regex` in `src/regex/mod.rs`). -/
structure Regex where
  original : String
  dfa : Dfa

/-- The two error kinds of regex compilation: a malformed pattern, or a
compiled automaton exceeding its byte budget. -/
inductive RegexError where
  | syntaxError
  | tooLarge
deriving DecidableEq, Repr

/-- Modelled from the spec: the stages of regex compilation (the
`regex_syntax` parser, the instruction compiler with its byte budget, and
the DFA builder) are not under `src/`.  `parse` fails exactly on malformed
patterns; `compiledSize` is the byte size of the compiled automaton,
checked against the budget. -/
structure RegexCompiler (Hir : Type) where
  parse : String → Option Hir
  compiledSize : Hir → Nat
  dfaOf : Hir → Dfa

/-- `Regex::with_size_limit`: parse, then compile within the byte budget;
each stage's error propagates. -/
def withSizeLimit {Hir : Type} (C : RegexCompiler Hir) (size : Nat)
    (re : String) : Except RegexError Regex :=
  match C.parse re with
  | none => Except.error RegexError.syntaxError
  | some hir =>
    if C.compiledSize hir ≤ size then Except.ok ⟨re, C.dfaOf hir⟩
    else Except.error RegexError.tooLarge

/-- `Regex::new`: `with_size_limit` with the fixed default budget
`10 * (1 << 20)` bytes (src/regex/mod.rs line 82). -/
def regexNew {Hir : Type} (C : RegexCompiler Hir) (re : String) :
    Except RegexError Regex :=
  withSizeLimit C (10 * (1 <<< 20)) re

/-- C9: Regex::new parses and compiles with the fixed default size limit of
10 * 2^20 bytes; it errors with the syntax error on a malformed pattern and
with the too-large error when the compiled automaton exceeds the budget,
and returns a usable Regex otherwise. -/
theorem regexNew_spec {Hir : Type} (C : RegexCompiler Hir) (re : String) :
    regexNew C re = withSizeLimit C (10 * 2 ^ 20) re ∧
    (C.parse re = none → regexNew C re = Except.error RegexError.syntaxError) ∧
    (∀ hir, C.parse re = some hir → 10 * 2 ^ 20 < C.compiledSize hir →
      regexNew C re = Except.error RegexError.tooLarge) ∧
    (∀ hir, C.parse re = some hir → C.compiledSize hir ≤ 10 * 2 ^ 20 →
      regexNew C re = Except.ok ⟨re, C.dfaOf hir⟩) ∧
    ((∃ r, regexNew C re = Except.ok r) ↔
      ∃ hir, C.parse re = some hir ∧ C.compiledSize hir ≤ 10 * 2 ^ 20) := by
  have hsz : 10 * (1 <<< 20) = 10 * 2 ^ 20 := by
    norm_num [Nat.shiftLeft_eq]
  have heq : regexNew C re = withSizeLimit C (10 * 2 ^ 20) re := by
    rw [regexNew, hsz]
  refine ⟨heq, ?_, ?_, ?_, ?_⟩
  · intro hp
    rw [heq, withSizeLimit, hp]
  · intro hir hp hlt
    rw [heq, withSizeLimit, hp]
    simp only [if_neg (by omega : ¬ C.compiledSize hir ≤ 10 * 2 ^ 20)]
  · intro hir hp hle
    rw [heq, withSizeLimit, hp]
    simp only [if_pos hle]
  · rw [heq, withSizeLimit]
    cases hp : C.parse re with
    | none =>
      constructor
      · rintro ⟨r, hr⟩; cases hr
      · rintro ⟨hir, hhir, _⟩; cases hhir
    | some hir =>
      by_cases hle : C.compiledSize hir ≤ 10 * 2 ^ 20
      · simp only [if_pos hle]
        exact ⟨fun _ => ⟨hir, rfl, hle⟩, fun _ => ⟨⟨re, C.dfaOf hir⟩, rfl⟩⟩
      · simp only [if_neg hle]
        constructor
        · rintro ⟨r, hr⟩; cases hr
        · rintro ⟨hir', hhir', hle'⟩
          exfalso
          apply hle
          have : hir' = hir := by
            injection hhir' with h'
            exact h'.symm
          rw [← this]
          exact hle'

/-- The Automaton implementation of Regex (src/regex/mod.rs lines 96-118):
state Option usize; start is Some(0); is_match maps into the DFA and
defaults to false; can_match is is_some; accept binds the DFA transition. -/
def Regex.aut (r : Regex) : Automaton (Option Nat) where
  start := some 0
  isMatch := fun s => (s.map r.dfa.isMatchSt).getD false
  canMatch := fun s => s.isSome
  accept := fun s b => s.bind (fun st => r.dfa.acceptSt st b)

/-- C10: the dead state None of the Regex automaton is absorbing and
correctly signalled: can_match holds exactly on Some states, accept and
is_match on None stay dead, and the start state Some(0) can always match. -/
theorem regexAut_dead_state (r : Regex) :
    (∀ s : Option Nat, r.aut.canMatch s = true ↔ s.isSome = true) ∧
    (∀ b : Nat, r.aut.accept none b = none) ∧
    (r.aut.isMatch none = false) ∧
    r.aut.start = some 0 ∧
    r.aut.canMatch r.aut.start = true :=
  ⟨fun _ => Iff.rfl, fun _ => rfl, rfl, rfl, rfl⟩
